import Mathlib

/-!
Verification of the flexible JSON input layer of mcp-cozodb
(`stripJsonComments`, `parseJsonc`, `parseJsonl`, `detectJsonFormat`,
`hasComments`, `parseFlexibleJson` from the json utilities module).

Strings are embedded as `List Char`.  The external ECMAScript builtin
`JSON.parse` is not part of the repository, so every operation that calls it
is parameterised over an abstract parser `parse : List Char → Except String J`
(an exception becomes an `Except.error` carrying the exception message).
-/

set_option autoImplicit false

namespace JsonUtils

/-- Scanner state of the `stripJsonComments` loop.  The source is a single
`while` loop with nested inner loops; each inner loop corresponds to one
state here: `top` is the outer loop head, `instr` the string-literal copying
loop, `linec` the line-comment skipping loop, `blockc` the block-comment
skipping loop. -/
inductive ScanState where
  | top
  | instr
  | linec
  | blockc
  deriving DecidableEq

/-- One-pass scan of `stripJsonComments`: same transitions and output as the
source loop.  In `top`, a quote starts a string literal, `//` starts a line
comment (terminated by a kept newline), `/*` starts a block comment
(terminated by `*/`, both delimiters dropped), everything else is copied.
In `instr`, a backslash copies itself and the following character without
inspecting it, a quote returns to `top`, everything else is copied.
A lone `/` at end of input is copied; a final orphan character inside an
unterminated block comment is dropped (the source advances `i` past it when
the `i + 1 < len` guard fails). -/
def stripAux (s : ScanState) : List Char → List Char
  | [] => []
  | c :: rest =>
    match s with
    | .top =>
      if c = '"' then c :: stripAux .instr rest
      else if c = '/' then
        match rest with
        | d :: rest2 =>
          if d = '/' then stripAux .linec rest2
          else if d = '*' then stripAux .blockc rest2
          else c :: stripAux .top (d :: rest2)
        | [] => [c]
      else c :: stripAux .top rest
    | .instr =>
      if c = '\\' then
        match rest with
        | d :: rest2 => c :: d :: stripAux .instr rest2
        | [] => [c]
      else if c = '"' then c :: stripAux .top rest
      else c :: stripAux .instr rest
    | .linec =>
      if c = '\n' then c :: stripAux .top rest
      else stripAux .linec rest
    | .blockc =>
      match rest with
      | d :: rest2 =>
        if c = '*' ∧ d = '/' then stripAux .top rest2
        else stripAux .blockc (d :: rest2)
      | [] => []

/-- Strip line comments and block comments from a JSON string, preserving
content inside string literals (source function `stripJsonComments`). -/
def stripJsonComments (input : List Char) : List Char :=
  stripAux .top input

/-- Parse a JSONC string: strip comments, then hand the rest to the JSON
parser (source function `parseJsonc`). -/
def parseJsonc {J : Type} (parse : List Char → Except String J)
    (input : List Char) : Except String J :=
  parse (stripJsonComments input)

/-- The whitespace set recognised by the embedded `trim` and `trimStart`:
ASCII whitespace plus no-break space and BOM, matching the characters the
inputs of this development can contain. -/
def isJsWs (c : Char) : Bool :=
  c = ' ' || c = '\t' || c = '\n' || c = '\r' ||
  c = '\x0b' || c = '\x0c' || c = '\xa0' || c = '﻿'

/-- Embedding of `String.prototype.trimStart`. -/
def jsTrimStart (l : List Char) : List Char :=
  l.dropWhile isJsWs

/-- Embedding of `String.prototype.trim`. -/
def jsTrim (l : List Char) : List Char :=
  ((l.dropWhile isJsWs).reverse.dropWhile isJsWs).reverse

/-- Embedding of `String.prototype.split("\n")`: the list of newline-free
segments; the empty string splits to one empty segment, a trailing newline
produces a final empty segment. -/
def splitLines : List Char → List (List Char)
  | [] => [[]]
  | c :: rest =>
    if c = '\n' then [] :: splitLines rest
    else
      match splitLines rest with
      | [] => [[c]]
      | h :: t => (c :: h) :: t

/-- The surviving lines of `parseJsonl`: split on newline, trim each line,
discard lines that are empty after trimming. -/
def jsonlLines (input : List Char) : List (List Char) :=
  ((splitLines input).map jsTrim).filter (fun l => !l.isEmpty)

/-- The indexed parsing loop of `parseJsonl` (`.map((line, index) => ...)`
over the filtered lines): parse each line, aborting at the first failure
with the message the source builds from the element index `i` in the
filtered array and the underlying parser message. -/
def parseLines {J : Type} (parse : List Char → Except String J) :
    Nat → List (List Char) → Except String (List J)
  | _, [] => Except.ok []
  | i, l :: rest =>
    match parse l with
    | Except.ok v =>
      match parseLines parse (i + 1) rest with
      | Except.ok vs => Except.ok (v :: vs)
      | Except.error e => Except.error e
    | Except.error m =>
      Except.error ("JSONL parse error on line " ++ toString (i + 1) ++ ": " ++ m)

/-- Parse a JSONL string, one JSON value per non-blank line (source function
`parseJsonl`). -/
def parseJsonl {J : Type} (parse : List Char → Except String J)
    (input : List Char) : Except String (List J) :=
  parseLines parse 0 (jsonlLines input)

/-- Scanner of the source function `hasComments`: reports whether a `//` or
`/*` marker occurs outside a string literal.  The `Bool` argument is the
`inString` flag; inside a string a backslash skips the next character. -/
def hasCommentsAux (inString : Bool) : List Char → Bool
  | [] => false
  | c :: rest =>
    if inString then
      if c = '\\' then
        match rest with
        | [] => false
        | _ :: rest2 => hasCommentsAux true rest2
      else if c = '"' then hasCommentsAux false rest
      else hasCommentsAux true rest
    else
      if c = '"' then hasCommentsAux true rest
      else if c = '/' then
        match rest with
        | d :: _ => if d = '/' ∨ d = '*' then true else hasCommentsAux false rest
        | [] => false
      else hasCommentsAux false rest

/-- Quick check for comment markers outside of JSON string literals (source
function `hasComments`). -/
def hasComments (input : List Char) : Bool :=
  hasCommentsAux false input

/-- Embedding of `String.prototype.startsWith` for a two-character prefix. -/
def startsWith2 (a b : Char) : List Char → Bool
  | x :: y :: _ => x == a && y == b
  | _ => false

/-- Supported input format identifiers (source type `JsonFormat`). -/
inductive JsonFormat where
  | json
  | jsonc
  | jsonl
  deriving DecidableEq

/-- The non-blank lines examined by the JSONL heuristic of
`detectJsonFormat`: the newline split of the start-trimmed input with
blank lines discarded (each kept line is the original segment, untrimmed). -/
def detectLines (input : List Char) : List (List Char) :=
  (splitLines (jsTrimStart input)).filter (fun l => !(jsTrim l).isEmpty)

/-- Detect the format of a JSON-like string via heuristics (source function
`detectJsonFormat`); `parseOk` abstracts "`JSON.parse` does not throw".
The local `lines` of the source is the def `detectLines`. -/
def detectJsonFormat (parseOk : List Char → Bool) (input : List Char) : JsonFormat :=
  let trimmed := jsTrimStart input
  if startsWith2 '/' '/' trimmed || startsWith2 '/' '*' trimmed then .jsonc
  else if hasComments trimmed then .jsonc
  else
    match detectLines input with
    | l0 :: _ :: _ => if parseOk l0 then .jsonl else .json
    | _ => .json

/-- Success test on an `Except` result ("the call did not throw"). -/
def exceptOk {ε α : Type} : Except ε α → Bool
  | Except.ok _ => true
  | Except.error _ => false

/-- Result of `parseFlexibleJson`: a single value for the `json` and `jsonc`
branches, an array of values for the `jsonl` branch. -/
inductive FlexValue (J : Type) where
  | one : J → FlexValue J
  | many : List J → FlexValue J

/-- Parse a string as JSON, JSONC, or JSONL, auto-detected (source function
`parseFlexibleJson`). -/
def parseFlexibleJson {J : Type} (parse : List Char → Except String J)
    (input : List Char) : Except String (FlexValue J) :=
  match detectJsonFormat (fun l => exceptOk (parse l)) input with
  | .jsonc => (parseJsonc parse input).map FlexValue.one
  | .jsonl => (parseJsonl parse input).map FlexValue.many
  | .json => (parse input).map FlexValue.one

/-- The JSON text of the object with field a mapped to 1. -/
def objA : List Char := ['{', '"', 'a', '"', ':', '1', '}']

/-- The JSON text of the object with field b mapped to 2. -/
def objB : List Char := ['{', '"', 'b', '"', ':', '2', '}']

/-- Concrete stand-in for the external `JSON.parse` builtin, used to evaluate
theorems on specific inputs.  It agrees with `JSON.parse` on every input this
development evaluates it on: it accepts the JSON texts listed below (modulo
surrounding whitespace, which `JSON.parse` tolerates), returning the trimmed
text itself as the parsed value, and rejects everything else with a
`SyntaxError`-style message. -/
def demoParse (l : List Char) : Except String (List Char) :=
  if jsTrim l = ['1'] ∨ jsTrim l = ['2'] ∨ jsTrim l = objA ∨ jsTrim l = objB then
    Except.ok (jsTrim l)
  else
    Except.error "Unexpected token"

/-- Whether a list of characters contains the two-character block-comment
closer (a star immediately followed by a slash). -/
def hasClose : List Char → Bool
  | [] => false
  | [_] => false
  | a :: b :: rest => if a = '*' ∧ b = '/' then true else hasClose (b :: rest)

/-- The inputs consisting only of whitespace, line comments and terminated
block comments (the shape named by the spec for the comments-only failure
mode of `parseJsonc`). -/
inductive CommentsOnly : List Char → Prop where
  | nil : CommentsOnly []
  | ws : ∀ (c : Char) (l : List Char), isJsWs c = true → CommentsOnly l →
      CommentsOnly (c :: l)
  | lineMid : ∀ (body l : List Char), body.all (fun x => !(x == '\n')) = true →
      CommentsOnly l → CommentsOnly ('/' :: '/' :: (body ++ '\n' :: l))
  | lineEnd : ∀ (body : List Char), body.all (fun x => !(x == '\n')) = true →
      CommentsOnly ('/' :: '/' :: body)
  | block : ∀ (body l : List Char), hasClose body = false →
      CommentsOnly l → CommentsOnly ('/' :: '*' :: (body ++ '*' :: '/' :: l))

/-- The JSON text of a string literal whose value is a Windows path with
doubled (escaped) backslashes. -/
def winPath : List Char :=
  ['"', 'C', ':', '\\', '\\', 'U', 's', 'e', 'r', 's', '\\', '\\', 't', 'e', 's', 't', '"']

/-- The JSON text of a string literal whose value ends in an escaped
backslash, so that the raw text ends with two backslashes and the closing
quote. -/
def bsEnd : List Char := ['"', 'a', '\\', '\\', '"']

/-- The JSON text of a string literal containing a double slash (a URL). -/
def urlEx : List Char := ['"', 'h', 't', 't', 'p', ':', '/', '/', 'x', '"']

/-- The text of the line comment example, without its marker. -/
def cmtBody : List Char :=
  [' ', 'j', 'u', 's', 't', ' ', 'a', ' ', 'c', 'o', 'm', 'm', 'e', 'n', 't']

/-- The comment-only input of the spec example for `parseJsonc`. -/
def cmtEx : List Char := '/' :: '/' :: cmtBody

end JsonUtils

namespace JsonUtils

theorem stripAux_nil (s : ScanState) : stripAux s [] = [] := by
  cases s <;> rfl

theorem stripAux_top_quote (rest : List Char) :
    stripAux .top ('"' :: rest) = '"' :: stripAux .instr rest := by
  cases rest <;> rfl

theorem stripAux_top_linec (rest : List Char) :
    stripAux .top ('/' :: '/' :: rest) = stripAux .linec rest := rfl

theorem stripAux_top_blockc (rest : List Char) :
    stripAux .top ('/' :: '*' :: rest) = stripAux .blockc rest := rfl

theorem stripAux_top_slash_other (d : Char) (rest : List Char)
    (h1 : d ≠ '/') (h2 : d ≠ '*') :
    stripAux .top ('/' :: d :: rest) = '/' :: stripAux .top (d :: rest) := by
  rw [stripAux.eq_def]; simp [h1, h2]

theorem stripAux_top_slash_nil : stripAux .top ['/'] = ['/'] := rfl

theorem stripAux_top_other (c : Char) (rest : List Char)
    (h1 : c ≠ '"') (h2 : c ≠ '/') :
    stripAux .top (c :: rest) = c :: stripAux .top rest := by
  rw [stripAux.eq_def]
  cases rest <;> simp [h1, h2]

theorem stripAux_instr_bs (d : Char) (rest : List Char) :
    stripAux .instr ('\\' :: d :: rest) = '\\' :: d :: stripAux .instr rest := rfl

theorem stripAux_instr_bs_nil : stripAux .instr ['\\'] = ['\\'] := rfl

theorem stripAux_instr_quote (rest : List Char) :
    stripAux .instr ('"' :: rest) = '"' :: stripAux .top rest := by
  cases rest <;> rfl

theorem stripAux_instr_other (c : Char) (rest : List Char)
    (h1 : c ≠ '\\') (h2 : c ≠ '"') :
    stripAux .instr (c :: rest) = c :: stripAux .instr rest := by
  rw [stripAux.eq_def]
  cases rest <;> simp [h1, h2]

theorem stripAux_linec_nl (rest : List Char) :
    stripAux .linec ('\n' :: rest) = '\n' :: stripAux .top rest := rfl

theorem stripAux_linec_other (c : Char) (rest : List Char) (h : c ≠ '\n') :
    stripAux .linec (c :: rest) = stripAux .linec rest := by
  rw [stripAux.eq_def]; simp [h]

theorem stripAux_blockc_close (rest : List Char) :
    stripAux .blockc ('*' :: '/' :: rest) = stripAux .top rest := rfl

theorem stripAux_blockc_step (c d : Char) (rest : List Char)
    (h : ¬(c = '*' ∧ d = '/')) :
    stripAux .blockc (c :: d :: rest) = stripAux .blockc (d :: rest) := by
  rw [stripAux.eq_def]; simp [h]

theorem stripAux_blockc_single (c : Char) : stripAux .blockc [c] = [] := rfl

theorem hasCommentsAux_nil (b : Bool) : hasCommentsAux b [] = false := rfl

theorem hasCommentsAux_false_quote (rest : List Char) :
    hasCommentsAux false ('"' :: rest) = hasCommentsAux true rest := by
  cases rest <;> rfl

theorem hasCommentsAux_false_marker (d : Char) (rest : List Char)
    (hd : d = '/' ∨ d = '*') :
    hasCommentsAux false ('/' :: d :: rest) = true := by
  rcases hd with rfl | rfl <;> rfl

theorem hasCommentsAux_false_slash_other (d : Char) (rest : List Char)
    (h1 : d ≠ '/') (h2 : d ≠ '*') :
    hasCommentsAux false ('/' :: d :: rest) = hasCommentsAux false (d :: rest) := by
  rw [hasCommentsAux.eq_def]
  simp [h1, h2]

theorem hasCommentsAux_false_slash_nil : hasCommentsAux false ['/'] = false := rfl

theorem hasCommentsAux_false_other (c : Char) (rest : List Char)
    (h1 : c ≠ '"') (h2 : c ≠ '/') :
    hasCommentsAux false (c :: rest) = hasCommentsAux false rest := by
  rw [hasCommentsAux.eq_def]
  cases rest <;> simp [h1, h2]

theorem hasCommentsAux_true_bs (d : Char) (rest : List Char) :
    hasCommentsAux true ('\\' :: d :: rest) = hasCommentsAux true rest := rfl

theorem hasCommentsAux_true_bs_nil : hasCommentsAux true ['\\'] = false := rfl

theorem hasCommentsAux_true_quote (rest : List Char) :
    hasCommentsAux true ('"' :: rest) = hasCommentsAux false rest := by
  cases rest <;> rfl

theorem hasCommentsAux_true_other (c : Char) (rest : List Char)
    (h1 : c ≠ '\\') (h2 : c ≠ '"') :
    hasCommentsAux true (c :: rest) = hasCommentsAux true rest := by
  rw [hasCommentsAux.eq_def]
  cases rest <;> simp [h1, h2]


theorem isJsWs_spec (c : Char) (h : isJsWs c = true) :
    c ≠ '"' ∧ c ≠ '/' ∧ c ≠ '\\' ∧ c ≠ '*' := by
  simp only [isJsWs, Bool.or_eq_true, decide_eq_true_eq] at h
  rcases h with ((((((h | h) | h) | h) | h) | h) | h) | h <;> subst h <;>
    exact ⟨by decide, by decide, by decide, by decide⟩

theorem hasCommentsAux_false_cons_ws (c : Char) (l : List Char)
    (h : isJsWs c = true) :
    hasCommentsAux false (c :: l) = hasCommentsAux false l := by
  obtain ⟨h1, h2, -, -⟩ := isJsWs_spec c h
  exact hasCommentsAux_false_other c l h1 h2

theorem hasComments_trimStart (l : List Char) :
    hasComments (jsTrimStart l) = hasComments l := by
  unfold hasComments jsTrimStart
  induction l with
  | nil => rfl
  | cons c rest ih =>
    by_cases hw : isJsWs c = true
    · rw [List.dropWhile_cons, if_pos hw, hasCommentsAux_false_cons_ws c rest hw]
      exact ih
    · rw [List.dropWhile_cons, if_neg hw]

theorem splitLines_ne_nil (l : List Char) : splitLines l ≠ [] := by
  cases l with
  | nil => simp [splitLines]
  | cons c rest =>
    simp only [splitLines]
    split
    · simp
    · split <;> simp

theorem jsTrim_cons_ws (c : Char) (l : List Char) (h : isJsWs c = true) :
    jsTrim (c :: l) = jsTrim l := by
  simp [jsTrim, List.dropWhile_cons, h]

theorem stripAux_id_aux : ∀ (n : Nat) (l : List Char), l.length ≤ n →
    (hasCommentsAux false l = false → stripAux ScanState.top l = l) ∧
    (hasCommentsAux true l = false → stripAux ScanState.instr l = l) := by
  intro n
  induction n with
  | zero =>
    intro l hl
    have hnil : l = [] := List.length_eq_zero.mp (Nat.le_zero.mp hl)
    subst hnil
    exact ⟨fun _ => rfl, fun _ => rfl⟩
  | succ n ih =>
    intro l hl
    cases l with
    | nil => exact ⟨fun _ => rfl, fun _ => rfl⟩
    | cons c rest =>
      have hr : rest.length ≤ n := by
        simp only [List.length_cons] at hl
        omega
      constructor
      · intro h
        by_cases hq : c = '"'
        · subst hq
          rw [hasCommentsAux_false_quote] at h
          rw [stripAux_top_quote, (ih rest hr).2 h]
        · by_cases hs : c = '/'
          · subst hs
            cases rest with
            | nil => rfl
            | cons d rest2 =>
              by_cases hd : d = '/' ∨ d = '*'
              · rw [hasCommentsAux_false_marker d rest2 hd] at h
                exact absurd h (by simp)
              · push_neg at hd
                rw [hasCommentsAux_false_slash_other d rest2 hd.1 hd.2] at h
                rw [stripAux_top_slash_other d rest2 hd.1 hd.2,
                  (ih (d :: rest2) (by simpa using hr)).1 h]
          · rw [hasCommentsAux_false_other c rest hq hs] at h
            rw [stripAux_top_other c rest hq hs, (ih rest hr).1 h]
      · intro h
        by_cases hb : c = '\\'
        · subst hb
          cases rest with
          | nil => rfl
          | cons d rest2 =>
            rw [hasCommentsAux_true_bs] at h
            have hr2 : rest2.length ≤ n := by
              simp only [List.length_cons] at hr
              omega
            rw [stripAux_instr_bs, (ih rest2 hr2).2 h]
        · by_cases hq : c = '"'
          · subst hq
            rw [hasCommentsAux_true_quote] at h
            rw [stripAux_instr_quote, (ih rest hr).1 h]
          · rw [hasCommentsAux_true_other c rest hb hq] at h
            rw [stripAux_instr_other c rest hb hq, (ih rest hr).2 h]

theorem strip_id_of_no_comments (l : List Char) (h : hasComments l = false) :
    stripJsonComments l = l :=
  (stripAux_id_aux l.length l le_rfl).1 h


theorem parseLines_ok_iff {J : Type} (parse : List Char → Except String J) :
    ∀ (ls : List (List Char)) (k : Nat) (vs : List J),
      parseLines parse k ls = Except.ok vs ↔
        List.Forall₂ (fun l v => parse l = Except.ok v) ls vs := by
  intro ls
  induction ls with
  | nil =>
    intro k vs
    constructor
    · intro h
      simp only [parseLines, Except.ok.injEq] at h
      subst h
      exact List.Forall₂.nil
    · intro h
      cases h
      rfl
  | cons l rest ih =>
    intro k vs
    constructor
    · intro h
      simp only [parseLines] at h
      cases hp : parse l with
      | error m => rw [hp] at h; simp at h
      | ok v =>
        rw [hp] at h
        cases hr : parseLines parse (k + 1) rest with
        | error e => rw [hr] at h; simp at h
        | ok vs2 =>
          rw [hr] at h
          simp only [Except.ok.injEq] at h
          subst h
          exact List.Forall₂.cons hp ((ih (k + 1) vs2).mp hr)
    · intro h
      rcases h with - | ⟨hp, hrest⟩
      simp only [parseLines, hp]
      rw [(ih (k + 1) _).mpr hrest]

theorem parseLines_error_at {J : Type} (parse : List Char → Except String J)
    (l : List Char) (m : String) (post : List (List Char)) :
    ∀ (pre : List (List Char)) (k : Nat),
      (∀ x ∈ pre, exceptOk (parse x) = true) → parse l = Except.error m →
      parseLines parse k (pre ++ l :: post) =
        Except.error
          ("JSONL parse error on line " ++ toString (k + pre.length + 1) ++ ": " ++ m) := by
  intro pre
  induction pre with
  | nil =>
    intro k hpre hl
    simp [parseLines, hl]
  | cons x pre2 ih =>
    intro k hpre hl
    have hx : exceptOk (parse x) = true := hpre x (by simp)
    cases hp : parse x with
    | error e => rw [hp] at hx; simp [exceptOk] at hx
    | ok v =>
      simp only [List.cons_append, parseLines, hp, List.append_eq]
      rw [ih (k + 1) (fun y hy => hpre y (by simp [hy])) hl]
      have harith : k + 1 + pre2.length + 1 = k + (x :: pre2).length + 1 := by
        simp only [List.length_cons]
        omega
      rw [harith]

theorem jsonlLines_length_eq (input : List Char) :
    (jsonlLines input).length =
      ((splitLines input).filter (fun l => !(jsTrim l).isEmpty)).length := by
  unfold jsonlLines
  induction splitLines input with
  | nil => rfl
  | cons x ls ih =>
    by_cases hx : (jsTrim x).isEmpty = true
    · simp only [List.map_cons, List.filter_cons, hx]
      simpa using ih
    · simp only [List.map_cons, List.filter_cons, hx]
      simp only [Bool.not_false, Bool.not_true]
      simpa using ih

theorem nb_cons_ws (c : Char) (l : List Char) (h : isJsWs c = true) :
    ((splitLines (c :: l)).filter (fun s => !(jsTrim s).isEmpty)).length =
      ((splitLines l).filter (fun s => !(jsTrim s).isEmpty)).length := by
  by_cases hn : c = '\n'
  · subst hn
    rw [show splitLines ('\n' :: l) = [] :: splitLines l from by simp [splitLines]]
    simp [List.filter_cons, jsTrim]
  · obtain ⟨h0, t0, heq⟩ : ∃ h0 t0, splitLines l = h0 :: t0 := by
      rcases hsl : splitLines l with - | ⟨h0, t0⟩
      · exact absurd hsl (splitLines_ne_nil l)
      · exact ⟨h0, t0, rfl⟩
    have hsplit : splitLines (c :: l) = (c :: h0) :: t0 := by
      simp [splitLines, hn, heq]
    rw [hsplit, heq]
    simp only [List.filter_cons, jsTrim_cons_ws c h0 h]
    by_cases hk : (jsTrim h0).isEmpty = true <;> simp [hk]

theorem nb_trimStart (l : List Char) :
    ((splitLines (jsTrimStart l)).filter (fun s => !(jsTrim s).isEmpty)).length =
      ((splitLines l).filter (fun s => !(jsTrim s).isEmpty)).length := by
  unfold jsTrimStart
  induction l with
  | nil => rfl
  | cons c rest ih =>
    by_cases hw : isJsWs c = true
    · rw [List.dropWhile_cons, if_pos hw, nb_cons_ws c rest hw]
      exact ih
    · rw [List.dropWhile_cons, if_neg hw]


theorem startsWith2_false_of_no_comments (t : List Char)
    (h : hasCommentsAux false t = false) :
    startsWith2 '/' '/' t = false ∧ startsWith2 '/' '*' t = false := by
  cases t with
  | nil => exact ⟨rfl, rfl⟩
  | cons x rest =>
    cases rest with
    | nil => exact ⟨rfl, rfl⟩
    | cons y rest2 =>
      by_cases hx : x = '/'
      · subst hx
        constructor
        · by_cases hy : y = '/'
          · subst hy
            rw [hasCommentsAux_false_marker '/' rest2 (Or.inl rfl)] at h
            exact absurd h (by simp)
          · simp [startsWith2, hy]
        · by_cases hy : y = '*'
          · subst hy
            rw [hasCommentsAux_false_marker '*' rest2 (Or.inr rfl)] at h
            exact absurd h (by simp)
          · simp [startsWith2, hy]
      · constructor <;> simp [startsWith2, hx]

theorem detect_jsonl_lines (parseOk : List Char → Bool) (input : List Char)
    (h : detectJsonFormat parseOk input = JsonFormat.jsonl) :
    2 ≤ (detectLines input).length := by
  simp only [detectJsonFormat] at h
  by_cases h1 : (startsWith2 '/' '/' (jsTrimStart input) ||
      startsWith2 '/' '*' (jsTrimStart input)) = true
  · rw [if_pos h1] at h
    exact absurd h (by simp)
  · rw [if_neg h1] at h
    by_cases h2 : hasComments (jsTrimStart input) = true
    · rw [if_pos h2] at h
      exact absurd h (by simp)
    · rw [if_neg h2] at h
      rcases hdl : detectLines input with - | ⟨l0, - | ⟨l1, t⟩⟩
      · rw [hdl] at h
        simp at h
      · rw [hdl] at h
        simp at h
      · simp only [List.length_cons]
        omega

theorem stripAux_linec_skip (l : List Char) :
    ∀ body : List Char, body.all (fun x => !(x == '\n')) = true →
      stripAux .linec (body ++ '\n' :: l) = '\n' :: stripAux .top l := by
  intro body
  induction body with
  | nil => intro _; exact stripAux_linec_nl l
  | cons b body2 ih =>
    intro h
    simp only [List.all_cons, Bool.and_eq_true, Bool.not_eq_true', beq_eq_false_iff_ne] at h
    rw [List.cons_append, stripAux_linec_other b _ h.1]
    exact ih (by simp only [List.all_eq_true] at h ⊢; exact fun x hx => h.2 x hx)

theorem stripAux_linec_all :
    ∀ body : List Char, body.all (fun x => !(x == '\n')) = true →
      stripAux .linec body = [] := by
  intro body
  induction body with
  | nil => intro _; rfl
  | cons b body2 ih =>
    intro h
    simp only [List.all_cons, Bool.and_eq_true, Bool.not_eq_true', beq_eq_false_iff_ne] at h
    rw [stripAux_linec_other b _ h.1]
    exact ih (by simp only [List.all_eq_true] at h ⊢; exact fun x hx => h.2 x hx)

theorem hasClose_cons_false (b : Char) (body : List Char)
    (h : hasClose (b :: body) = false) : hasClose body = false := by
  cases body with
  | nil => rfl
  | cons b2 r =>
    rw [hasClose.eq_def] at h
    by_cases hc : b = '*' ∧ b2 = '/'
    · simp [hc] at h
    · simpa [hc] using h

theorem stripAux_blockc_skip (l : List Char) :
    ∀ body : List Char, hasClose body = false →
      stripAux .blockc (body ++ '*' :: '/' :: l) = stripAux .top l := by
  intro body
  induction body with
  | nil => intro _; exact stripAux_blockc_close l
  | cons b body2 ih =>
    intro h
    cases body2 with
    | nil =>
      have hb : ¬(b = '*' ∧ '*' = '/') := by
        rintro ⟨-, habs⟩
        exact absurd habs (by decide)
      rw [List.cons_append, List.nil_append, stripAux_blockc_step b '*' _ hb]
      exact stripAux_blockc_close l
    | cons b2 r =>
      have hb : ¬(b = '*' ∧ b2 = '/') := by
        intro hc
        rw [hasClose.eq_def] at h
        simp [hc] at h
      simp only [List.cons_append]
      rw [stripAux_blockc_step b b2 _ hb]
      have hih := ih (hasClose_cons_false b (b2 :: r) h)
      simpa only [List.cons_append] using hih

theorem commentsOnly_strip_ws (l : List Char) (h : CommentsOnly l) :
    (stripJsonComments l).all isJsWs = true := by
  unfold stripJsonComments
  induction h with
  | nil => rfl
  | ws c l2 hc _ ih =>
    obtain ⟨h1, h2, -, -⟩ := isJsWs_spec c hc
    rw [stripAux_top_other c l2 h1 h2]
    simpa [List.all_cons, hc] using ih
  | lineMid body l2 hb _ ih =>
    rw [stripAux_top_linec, stripAux_linec_skip l2 body hb]
    rw [List.all_cons]
    simp only [Bool.and_eq_true]
    exact ⟨by decide, ih⟩
  | lineEnd body hb =>
    rw [stripAux_top_linec, stripAux_linec_all body hb]
    rfl
  | block body l2 hb _ ih =>
    rw [stripAux_top_blockc, stripAux_blockc_skip l2 body hb]
    exact ih

theorem jsTrim_mem (l : List Char) (x : Char) (hx : x ∈ jsTrim l) : x ∈ l := by
  unfold jsTrim at hx
  rw [List.mem_reverse] at hx
  have h1 := (List.dropWhile_sublist (l := (l.dropWhile isJsWs).reverse) isJsWs).subset hx
  rw [List.mem_reverse] at h1
  exact (List.dropWhile_sublist isJsWs).subset h1

theorem jsTrim_all_ws (l : List Char) (h : l.all isJsWs = true) :
    (jsTrim l).all isJsWs = true := by
  rw [List.all_eq_true] at h ⊢
  exact fun x hx => h x (jsTrim_mem l x hx)

theorem demoParse_ws (l : List Char) (h : l.all isJsWs = true) :
    demoParse l = Except.error "Unexpected token" := by
  unfold demoParse
  rw [if_neg]
  have hall := jsTrim_all_ws l h
  rintro (h1 | h1 | h1 | h1) <;> rw [h1] at hall <;> exact absurd hall (by decide)


/-- C1, as stated, is false on the code: when a line of the JSONL input fails
to parse, the error message numbers the failing line by its 1-indexed
position in the filtered list of non-blank lines, not in the raw
newline-split list.  On the input `1\\n\\nx` the raw split is
`["1", "", "x"]`, so the failing line `x` sits at raw position 3, yet the
raised error says `line 2` (its position among the non-blank lines), which
differs from the message raw numbering would produce. -/
theorem claim1_counterexample :
    splitLines ['1', '\n', '\n', 'x'] = [['1'], [], ['x']] ∧
      parseJsonl demoParse ['1', '\n', '\n', 'x'] =
        Except.error "JSONL parse error on line 2: Unexpected token" ∧
      "JSONL parse error on line 2: Unexpected token" ≠
        "JSONL parse error on line 3: Unexpected token" :=
  ⟨rfl, rfl, by decide⟩

/-- C1 (amended): for every input on which `parseJsonl` fails, the raised
`SyntaxError` embeds the underlying JSON parser message and the 1-indexed
position of the first failing line counted against the filtered list of
lines remaining after trimming and discarding blank lines (not against the
raw newline-split list). -/
theorem claim1_amended {J : Type} (parse : List Char → Except String J)
    (input : List Char) (pre : List (List Char)) (l : List Char)
    (post : List (List Char)) (m : String)
    (hs : jsonlLines input = pre ++ l :: post)
    (hpre : ∀ x ∈ pre, exceptOk (parse x) = true)
    (hl : parse l = Except.error m) :
    parseJsonl parse input =
      Except.error
        ("JSONL parse error on line " ++ toString (pre.length + 1) ++ ": " ++ m) := by
  unfold parseJsonl
  rw [hs, parseLines_error_at parse l m post pre 0 hpre hl]
  have h0 : 0 + pre.length + 1 = pre.length + 1 := by omega
  rw [h0]

/-- Witness for the amended C1: on `1\\n\\nx` the failing line `x` is the
second surviving line, and the error names line 2 and embeds the parser
message. -/
theorem claim1_amended_witness :
    jsonlLines ['1', '\n', '\n', 'x'] = [['1']] ++ ['x'] :: [] ∧
      demoParse ['x'] = Except.error "Unexpected token" ∧
      parseJsonl demoParse ['1', '\n', '\n', 'x'] =
        Except.error "JSONL parse error on line 2: Unexpected token" := by
  refine ⟨rfl, rfl, ?_⟩
  exact claim1_amended demoParse ['1', '\n', '\n', 'x'] [['1']] ['x'] []
    "Unexpected token" rfl (by decide) rfl

/-- C2: on every input whose comment-like substrings all lie inside string
literals (no marker outside a string, as detected by the code own
string-aware scan), `stripJsonComments` returns the input unchanged — no
character of any string content is removed — and therefore `parseJsonc`
agrees with the plain JSON parser applied to the original text, whatever
that parser is. -/
theorem claim2 {J : Type} (parse : List Char → Except String J)
    (input : List Char) (h : hasComments input = false) :
    stripJsonComments input = input ∧ parseJsonc parse input = parse input := by
  have hs := strip_id_of_no_comments input h
  refine ⟨hs, ?_⟩
  unfold parseJsonc
  rw [hs]

/-- Witness for C2 on a JSON string literal containing a double slash. -/
theorem claim2_witness :
    hasComments urlEx = false ∧
      (stripJsonComments urlEx = urlEx ∧
        parseJsonc demoParse urlEx = demoParse urlEx) :=
  ⟨by decide, claim2 demoParse urlEx (by decide)⟩

/-- C3: while the stripping scan is inside a string literal, the character
immediately following a backslash is consumed as part of the escape pair and
never changes the in-string state, whatever it is (so an escaped quote does
not terminate the string); consequently a string literal for a path with
doubled backslashes, and one ending in an escaped backslash right before the
closing quote, round-trip exactly. -/
theorem claim3 :
    (∀ (d : Char) (l : List Char),
        stripAux ScanState.instr ('\\' :: d :: l) =
          '\\' :: d :: stripAux ScanState.instr l) ∧
      stripJsonComments winPath = winPath ∧ stripJsonComments bsEnd = bsEnd :=
  ⟨stripAux_instr_bs, rfl, rfl⟩

/-- Witness for C3: the Windows-path string literal round-trips. -/
theorem claim3_witness : stripJsonComments winPath = winPath :=
  claim3.2.1

/-- C4: any input containing a `//` or `/*` marker outside string literals
(as detected by the code string-aware scan `hasComments`) is classified
`jsonc` by `detectJsonFormat`, never `jsonl`, whatever the JSONL heuristic
would say. -/
theorem claim4 (parseOk : List Char → Bool) (input : List Char)
    (h : hasComments input = true) :
    detectJsonFormat parseOk input = JsonFormat.jsonc ∧
      detectJsonFormat parseOk input ≠ JsonFormat.jsonl := by
  have ht : hasComments (jsTrimStart input) = true := by
    rw [hasComments_trimStart]; exact h
  have hmain : detectJsonFormat parseOk input = JsonFormat.jsonc := by
    simp only [detectJsonFormat]
    by_cases h12 : (startsWith2 '/' '/' (jsTrimStart input) ||
        startsWith2 '/' '*' (jsTrimStart input)) = true
    · rw [if_pos h12]
    · rw [if_neg h12, if_pos ht]
  refine ⟨hmain, ?_⟩
  rw [hmain]
  decide

/-- Witness for C4: an input that would otherwise satisfy the JSONL
heuristic but carries a trailing line comment. -/
theorem claim4_witness :
    hasComments ['1', '\n', '2', ' ', '/', '/', 'x'] = true ∧
      (detectJsonFormat (fun l => exceptOk (demoParse l))
          ['1', '\n', '2', ' ', '/', '/', 'x'] = JsonFormat.jsonc ∧
        detectJsonFormat (fun l => exceptOk (demoParse l))
          ['1', '\n', '2', ' ', '/', '/', 'x'] ≠ JsonFormat.jsonl) :=
  ⟨by decide, claim4 (fun l => exceptOk (demoParse l))
    ['1', '\n', '2', ' ', '/', '/', 'x'] (by decide)⟩

/-- C5: on every input with no comment marker outside string literals, if
splitting on newline and discarding blank lines leaves more than one line
then `detectJsonFormat` returns `jsonl` exactly when the first remaining
line parses as standalone JSON and `json` otherwise; with at most one
remaining line it returns `json`. -/
theorem claim5 (parseOk : List Char → Bool) (input : List Char)
    (h : hasComments input = false) :
    (2 ≤ (detectLines input).length →
        detectJsonFormat parseOk input =
          (if parseOk ((detectLines input).headD []) then JsonFormat.jsonl
           else JsonFormat.json)) ∧
      ((detectLines input).length < 2 →
        detectJsonFormat parseOk input = JsonFormat.json) := by
  have ht : hasComments (jsTrimStart input) = false := by
    rw [hasComments_trimStart]; exact h
  obtain ⟨h1, h2⟩ := startsWith2_false_of_no_comments (jsTrimStart input) ht
  have hdet : detectJsonFormat parseOk input =
      (match detectLines input with
       | l0 :: _ :: _ => if parseOk l0 then JsonFormat.jsonl else JsonFormat.json
       | _ => JsonFormat.json) := by
    simp [detectJsonFormat, h1, h2, ht]
  rcases hdl : detectLines input with - | ⟨l0, - | ⟨l1, t⟩⟩
  · constructor
    · intro habs
      simp at habs
    · intro _
      rw [hdet, hdl]
  · constructor
    · intro habs
      simp at habs
    · intro _
      rw [hdet, hdl]
  · constructor
    · intro _
      rw [hdet, hdl]
      simp [List.headD]
    · intro habs
      simp only [List.length_cons] at habs
      omega

/-- Witness for C5 on a two-line JSONL-looking input. -/
theorem claim5_witness :
    hasComments ['1', '\n', '2'] = false ∧
      ((2 ≤ (detectLines ['1', '\n', '2']).length →
          detectJsonFormat (fun l => exceptOk (demoParse l)) ['1', '\n', '2'] =
            (if exceptOk (demoParse ((detectLines ['1', '\n', '2']).headD [])) then
              JsonFormat.jsonl
            else JsonFormat.json)) ∧
        ((detectLines ['1', '\n', '2']).length < 2 →
          detectJsonFormat (fun l => exceptOk (demoParse l)) ['1', '\n', '2'] =
            JsonFormat.json)) :=
  ⟨by decide, claim5 (fun l => exceptOk (demoParse l)) ['1', '\n', '2'] (by decide)⟩

/-- C6: an input consisting only of whitespace, line comments and terminated
block comments strips to a whitespace-only string, which no JSON parser that
rejects whitespace-only text accepts, so `parseJsonc` fails with the parser
syntax error rather than returning a value. -/
theorem claim6 {J : Type} (parse : List Char → Except String J)
    (input : List Char) (h : CommentsOnly input)
    (hp : ∀ l : List Char, l.all isJsWs = true → ∃ e, parse l = Except.error e) :
    (stripJsonComments input).all isJsWs = true ∧
      ∃ e, parseJsonc parse input = Except.error e := by
  have hws := commentsOnly_strip_ws input h
  exact ⟨hws, hp _ hws⟩

/-- Witness for C6 on the spec example, a lone line comment. -/
theorem claim6_witness :
    CommentsOnly cmtEx ∧
      ((stripJsonComments cmtEx).all isJsWs = true ∧
        ∃ e, parseJsonc demoParse cmtEx = Except.error e) := by
  have hC : CommentsOnly cmtEx := CommentsOnly.lineEnd cmtBody (by decide)
  exact ⟨hC, claim6 demoParse cmtEx hC (fun l hl => ⟨_, demoParse_ws l hl⟩)⟩

/-- C7: `parseJsonl` splits on newline, trims each line, discards lines that
are blank after trimming (including a trailing blank from a final newline),
and succeeds exactly when each surviving line parses, returning the parses
in their original relative order; on the two-object example with interior
and trailing blank lines it returns exactly the two values in order. -/
theorem claim7 :
    (∀ (J : Type) (parse : List Char → Except String J) (input : List Char)
        (vs : List J),
        parseJsonl parse input = Except.ok vs ↔
          List.Forall₂ (fun l v => parse l = Except.ok v) (jsonlLines input) vs) ∧
      parseJsonl demoParse (objA ++ '\n' :: '\n' :: (objB ++ ['\n', '\n'])) =
        Except.ok [objA, objB] :=
  ⟨fun _ parse input vs => parseLines_ok_iff parse (jsonlLines input) 0 vs, rfl⟩

/-- Witness for C7: the two-object example evaluates to exactly the two
values in order. -/
theorem claim7_witness :
    parseJsonl demoParse (objA ++ '\n' :: '\n' :: (objB ++ ['\n', '\n'])) =
      Except.ok [objA, objB] :=
  claim7.2

/-- C8: on every input with no comment marker outside string literals,
`stripJsonComments` returns the identical string, and is hence idempotent
there. -/
theorem claim8 (input : List Char) (h : hasComments input = false) :
    stripJsonComments input = input ∧
      stripJsonComments (stripJsonComments input) = stripJsonComments input := by
  have hs := strip_id_of_no_comments input h
  refine ⟨hs, ?_⟩
  rw [hs]
  exact hs

/-- Witness for C8 on a comment-free JSON object. -/
theorem claim8_witness :
    hasComments objA = false ∧
      (stripJsonComments objA = objA ∧
        stripJsonComments (stripJsonComments objA) = stripJsonComments objA) :=
  ⟨by decide, claim8 objA (by decide)⟩

/-- C9: on the empty string and on every input whose lines are all blank
after trimming, `parseJsonl` succeeds with the empty sequence instead of
raising an error. -/
theorem claim9 {J : Type} (parse : List Char → Except String J)
    (input : List Char) (h : ∀ l ∈ splitLines input, jsTrim l = []) :
    parseJsonl parse input = Except.ok [] := by
  have hgen : ∀ ls : List (List Char), (∀ l ∈ ls, jsTrim l = []) →
      (ls.map jsTrim).filter (fun l => !l.isEmpty) = [] := by
    intro ls
    induction ls with
    | nil => intro _; rfl
    | cons x xs ih =>
      intro hall
      have hx : jsTrim x = [] := hall x (List.mem_cons_self x xs)
      rw [List.map_cons, List.filter_cons, hx]
      simpa using ih (fun l hl => hall l (List.mem_cons_of_mem x hl))
  have hnil : jsonlLines input = [] := hgen (splitLines input) h
  unfold parseJsonl
  rw [hnil]
  rfl

/-- Witness for C9 on an input of two blank lines. -/
theorem claim9_witness :
    (∀ l ∈ splitLines ['\n', '\n'], jsTrim l = []) ∧
      parseJsonl demoParse ['\n', '\n'] = Except.ok [] :=
  ⟨by decide, claim9 demoParse ['\n', '\n'] (by decide)⟩

/-- C10: whenever `parseFlexibleJson` returns a sequence (its `jsonl`
branch), that sequence has at least two elements: the detector only answers
`jsonl` on inputs with at least two non-blank lines, and `parseJsonl`
returns one value per surviving line. -/
theorem claim10 {J : Type} (parse : List Char → Except String J)
    (input : List Char) (vs : List J)
    (h : parseFlexibleJson parse input = Except.ok (FlexValue.many vs)) :
    2 ≤ vs.length := by
  cases hdet : detectJsonFormat (fun l => exceptOk (parse l)) input with
  | jsonc =>
    exfalso
    unfold parseFlexibleJson at h
    rw [hdet] at h
    cases hp : parseJsonc parse input with
    | ok v => rw [hp] at h; simp [Except.map] at h
    | error e => rw [hp] at h; simp [Except.map] at h
  | json =>
    exfalso
    unfold parseFlexibleJson at h
    rw [hdet] at h
    cases hp : parse input with
    | ok v => rw [hp] at h; simp [Except.map] at h
    | error e => rw [hp] at h; simp [Except.map] at h
  | jsonl =>
    unfold parseFlexibleJson at h
    rw [hdet] at h
    cases hp : parseJsonl parse input with
    | error e => rw [hp] at h; simp [Except.map] at h
    | ok vs2 =>
      rw [hp] at h
      simp only [Except.map, Except.ok.injEq] at h
      have hvs : vs2 = vs := by injection h
      subst hvs
      unfold parseJsonl at hp
      have hfa := (parseLines_ok_iff parse (jsonlLines input) 0 vs2).mp hp
      have hlen := List.Forall₂.length_eq hfa
      rw [← hlen, jsonlLines_length_eq, ← nb_trimStart]
      have h2 := detect_jsonl_lines _ _ hdet
      simpa [detectLines] using h2

/-- Witness for C10 on a two-line JSONL input. -/
theorem claim10_witness :
    parseFlexibleJson demoParse ['1', '\n', '2'] =
        Except.ok (FlexValue.many [['1'], ['2']]) ∧
      2 ≤ ([['1'], ['2']] : List (List Char)).length :=
  ⟨rfl, claim10 demoParse ['1', '\n', '2'] [['1'], ['2']] rfl⟩

end JsonUtils
